import Mathlib

/-!
Verification of the markdown parsing engine of `@snapp-notes/markdown-parser`.

The repository ships the engine as a Peggy grammar (`src/grammar.peggy`)
compiled to a `parse` function.  The grammar file itself is not present in
the sources available here; only its test suite, README and build
configuration are.  The engine below is therefore modelled from the
specification's rule semantics (spec sections 2, 4.1 and 7), with every
behavioural choice that the spec leaves open pinned down by the repository's
own test suite.  Strings are modelled as lists of characters
(`String.data`); machine behaviour is purely functional, so the embedding is
a direct transcription of the documented scanning loop.
-/

namespace SnappMarkdown

/-- A source position: zero-based character offset, one-based line and
one-based column, exactly as in the README's `Position` interface. -/
structure Position where
  offset : Nat
  line : Nat
  column : Nat
deriving DecidableEq, Repr

/-- A source span, the `loc` value of a node: start and end positions. -/
structure Loc where
  start : Position
  «end» : Position
deriving DecidableEq, Repr

/-- The discriminating `type` tag of an output node.  The parser emits only
these seven tags; in particular a newline is emitted as a `text` node, not
as a separate tag. -/
inductive NodeType where
  | text
  | header
  | bold
  | italic
  | link
  | code
  | list
deriving DecidableEq, Repr

/-- One element of the parser's flat output sequence.  Optional fields model
JS object fields that are present only on some node types (`level` on
headers, `language` on code blocks, `text`/`url` on links) or sometimes
absent (`loc`). -/
structure Node where
  type : NodeType
  content : List Char
  loc : Option Loc
  level : Option Nat
  language : Option (List Char)
  text : Option (List Char)
  url : Option (List Char)
deriving DecidableEq, Repr

/-- Plain text node (merged fallback runs carry no `loc`). -/
def textNode (c : List Char) (l : Option Loc) : Node :=
  ⟨.text, c, l, none, none, none, none⟩

/-- Header node with its `level`. -/
def headerNode (c : List Char) (lv : Nat) (l : Loc) : Node :=
  ⟨.header, c, some l, some lv, none, none, none⟩

/-- Bold node. -/
def boldNode (c : List Char) (l : Loc) : Node :=
  ⟨.bold, c, some l, none, none, none, none⟩

/-- Italic node. -/
def italicNode (c : List Char) (l : Loc) : Node :=
  ⟨.italic, c, some l, none, none, none, none⟩

/-- Link node with its `text` and `url` fields. -/
def linkNode (t u c : List Char) (l : Loc) : Node :=
  ⟨.link, c, some l, none, none, some t, some u⟩

/-- Code node with its `language` field. -/
def codeNode (c lang : List Char) (l : Loc) : Node :=
  ⟨.code, c, some l, none, some lang, none, none⟩

/-- List-item node. -/
def listNode (c : List Char) (l : Loc) : Node :=
  ⟨.list, c, some l, none, none, none, none⟩

/-- The backquote character that forms code fences. -/
def bt : Char := Char.ofNat 96

/-- The result of one grammar rule firing, before a location is attached. -/
inductive RawNode where
  | header (content : List Char) (level : Nat)
  | code (content language : List Char)
  | bold (content : List Char)
  | italic (content : List Char)
  | link (text url content : List Char)
  | list (content : List Char)
  | newline
deriving DecidableEq, Repr

/-- First-match choice between two optional rule results, the ordered
alternative combinator of the grammar. -/
def firstSome {α : Type} (a b : Option α) : Option α :=
  match a with
  | some x => some x
  | none => b

/-- Modelled from the spec: the *header* rule of the missing
`src/grammar.peggy`.  At line start only: one to six leading `#` characters
followed by a space, then everything up to (not including) the next newline
or end of input; `content` is the whole matched line, `level` the number of
`#` characters. -/
def matchHeader (cs : List Char) : Option (Nat × RawNode) :=
  let hashes := cs.takeWhile (· == '#')
  if 1 ≤ hashes.length ∧ hashes.length ≤ 6 then
    match cs.dropWhile (· == '#') with
    | ' ' :: rest =>
      let line := rest.takeWhile (· != '\n')
      some (hashes.length + 1 + line.length,
        .header (cs.take (hashes.length + 1 + line.length)) hashes.length)
    | _ => none
  else none

/-- Decides whether a closing code fence starts here: a newline followed by
a line that is exactly three backquotes (so the three backquotes are
followed by a newline or by end of input). -/
def isCloseAt (l : List Char) : Bool :=
  decide (l.take 4 = ['\n', bt, bt, bt] ∧
    (l.drop 4 = [] ∨ (l.drop 4).head? = some '\n'))

/-- Index of the first closing code fence in `l`, if any. -/
def findClose : List Char → Option Nat
  | [] => none
  | c :: rest =>
    if isCloseAt (c :: rest) then some 0
    else (findClose rest).map (· + 1)

/-- Modelled from the spec: the *code block* rule of the missing
`src/grammar.peggy`.  At line start only: three backquotes, an optional
language tag (a run of non-newline, non-backquote characters), then a
newline; captures everything up to the next line that is exactly three
backquotes.  `content` excludes both fence lines but includes the newline
that followed the opening fence line; if no closing fence exists the rule
does not match at all. -/
def matchCode (cs : List Char) : Option (Nat × RawNode) :=
  if cs.take 3 = [bt, bt, bt] then
    let cs0 := cs.drop 3
    let lang := cs0.takeWhile (fun c => c != '\n' && c != bt)
    let rest := cs0.dropWhile (fun c => c != '\n' && c != bt)
    if rest.head? = some '\n' then
      match findClose rest with
      | some i => some (3 + lang.length + i + 4, .code (rest.take i) lang)
      | none => none
    else none
  else none

/-- Modelled from the spec: the *bold* rule for one delimiter character
(`*` or `_`).  A doubled delimiter, a non-empty body of characters that are
neither the delimiter nor a newline, then the doubled delimiter again; if
the closing pair is missing the rule does not match.  The body may not
contain the delimiter character: the repository's nested-formatting test
requires `**bold *italic* text**` to break into several nodes. -/
def matchBoldD (d : Char) (cs : List Char) : Option (Nat × RawNode) :=
  match cs with
  | c1 :: c2 :: rest =>
    if c1 = d ∧ c2 = d then
      let body := rest.takeWhile (fun c => c != d && c != '\n')
      if 1 ≤ body.length ∧
          (rest.dropWhile (fun c => c != d && c != '\n')).take 2 = [d, d] then
        some (2 + body.length + 2, .bold (cs.take (2 + body.length + 2)))
      else none
    else none
  | _ => none

/-- The *bold* rule: `**…**` tried before `__…__`. -/
def matchBold (cs : List Char) : Option (Nat × RawNode) :=
  firstSome (matchBoldD '*' cs) (matchBoldD '_' cs)

/-- Modelled from the spec: the *italic* rule for one delimiter character.
A single delimiter, a non-empty body free of the delimiter and of newlines,
then the delimiter again.  A `*` immediately followed by a space is reserved
for the list rule and never opens italics. -/
def matchItalicD (d : Char) (cs : List Char) : Option (Nat × RawNode) :=
  match cs with
  | c1 :: rest =>
    if c1 = d ∧ ¬(d = '*' ∧ rest.head? = some ' ') then
      let body := rest.takeWhile (fun c => c != d && c != '\n')
      if 1 ≤ body.length ∧
          (rest.dropWhile (fun c => c != d && c != '\n')).take 1 = [d] then
        some (1 + body.length + 1, .italic (cs.take (1 + body.length + 1)))
      else none
    else none
  | _ => none

/-- The *italic* rule: `*…*` tried before `_…_`. -/
def matchItalic (cs : List Char) : Option (Nat × RawNode) :=
  firstSome (matchItalicD '*' cs) (matchItalicD '_' cs)

/-- Modelled from the spec: the *link* rule.  `[`, any run without `]`
(possibly empty), `]`, `(`, any run without `)` (possibly empty), `)`.
`text` is the bracket run, `url` the parenthesis run, `content` the whole
span; no URL validation. -/
def matchLink (cs : List Char) : Option (Nat × RawNode) :=
  match cs with
  | c1 :: rest =>
    if c1 = '[' then
      let t := rest.takeWhile (· != ']')
      match rest.dropWhile (· != ']') with
      | b1 :: b2 :: rest2 =>
        if b1 = ']' ∧ b2 = '(' then
          let u := rest2.takeWhile (· != ')')
          match rest2.dropWhile (· != ')') with
          | p1 :: _ =>
            if p1 = ')' then
              some (1 + t.length + 2 + u.length + 1,
                .link t u (cs.take (1 + t.length + 2 + u.length + 1)))
            else none
          | _ => none
        else none
      | _ => none
    else none
  | _ => none

/-- Modelled from the spec: the *list item* rule.  At line start only:
`*`, one space, then the rest of the line up to (not including) the next
newline or end of input; `content` includes the `*` and the space. -/
def matchList (cs : List Char) : Option (Nat × RawNode) :=
  match cs with
  | c1 :: c2 :: rest =>
    if c1 = '*' ∧ c2 = ' ' then
      let line := rest.takeWhile (· != '\n')
      some (2 + line.length, .list (cs.take (2 + line.length)))
    else none
  | _ => none

/-- Modelled from the spec: the *newline* rule, a single `\n` emitted as its
own node. -/
def matchNewline (cs : List Char) : Option (Nat × RawNode) :=
  match cs with
  | c :: _ => if c = '\n' then some (1, .newline) else none
  | _ => none

/-- Modelled from the spec: the ordered rule dispatch of the missing
`src/grammar.peggy` — header, code block, bold, italic, link, list item,
newline, in strict priority order; header, code block and list item fire
only at the start of a line. -/
def tryRules (lineStart : Bool) (cs : List Char) : Option (Nat × RawNode) :=
  firstSome (if lineStart then matchHeader cs else none)
    (firstSome (if lineStart then matchCode cs else none)
      (firstSome (matchBold cs)
        (firstSome (matchItalic cs)
          (firstSome (matchLink cs)
            (firstSome (if lineStart then matchList cs else none)
              (matchNewline cs))))))

/-- Attach a location to a raw rule result, yielding the emitted node.  The
newline rule yields a `text` node whose content is the newline itself. -/
def mkNode (raw : RawNode) (l : Loc) : Node :=
  match raw with
  | .header c lv => headerNode c lv l
  | .code c lang => codeNode c lang l
  | .bold c => boldNode c l
  | .italic c => italicNode c l
  | .link t u c => linkNode t u c l
  | .list c => listNode c l
  | .newline => textNode ['\n'] (some l)

/-- Advance a position over one consumed character (newline bumps the line
and resets the column). -/
def advanceChar (p : Position) (c : Char) : Position :=
  if c = '\n' then ⟨p.offset + 1, p.line + 1, 1⟩
  else ⟨p.offset + 1, p.line, p.column + 1⟩

/-- Advance a position over a consumed character run. -/
def advance (p : Position) (cs : List Char) : Position :=
  cs.foldl advanceChar p

/-- Flush the pending text accumulator as one merged `text` node (with no
`loc`, as in the README's example output); an empty accumulator emits
nothing. -/
def flushBuf (buf : List Char) : List Node :=
  if buf = [] then [] else [textNode buf none]

/-- The scanning loop, fuelled for structural termination: at each position
try the rules in priority order; on a match, flush the text accumulator,
emit the matched node with its span, and continue after it; otherwise move
one character into the accumulator.  `none` signals fuel exhaustion, which
`parseLoopF_isSome` proves unreachable when the fuel is at least the length
of the remaining input. -/
def parseLoopF : Nat → List Char → Position → List Char → Option (List Node)
  | 0, cs, _, buf => if cs = [] then some (flushBuf buf) else none
  | fuel + 1, cs, pos, buf =>
    match cs with
    | [] => some (flushBuf buf)
    | c :: rest =>
      match tryRules (pos.column == 1) cs with
      | some (k, raw) =>
        let endPos := advance pos (cs.take k)
        (parseLoopF fuel (cs.drop k) endPos []).map
          (fun ns => flushBuf buf ++ mkNode raw ⟨pos, endPos⟩ :: ns)
      | none => parseLoopF fuel rest (advanceChar pos c) (buf ++ [c])

/-- The `SyntaxError`-kind value thrown by `parse`: message, expected token
descriptions, offending character (none at end of input) and position. -/
structure ParseError where
  message : List Char
  expected : List (List Char)
  found : Option Char
  location : Position
deriving DecidableEq, Repr

/-- Position of the start of the input. -/
def startPosition : Position := ⟨0, 1, 1⟩

/-- The error thrown on empty input. -/
def emptyInputError : ParseError :=
  ⟨("end of input reached with no node matched").data, [], none, startPosition⟩

/-- The defensive error for a cursor that fails to advance (proved
unreachable). -/
def stuckCursorError : ParseError :=
  ⟨("cursor failed to advance").data, [], none, startPosition⟩

/-- Modelled from the spec: the `parse` entry point of the missing
`src/grammar.peggy`, on the character-list view of the input.  Empty input
is a hard failure; otherwise the scanning loop runs to completion. -/
def parseData (cs : List Char) : Except ParseError (List Node) :=
  if cs = [] then .error emptyInputError
  else
    match parseLoopF cs.length cs startPosition [] with
    | some ns => .ok ns
    | none => .error stuckCursorError

/-- The `parse` entry point on strings. -/
def parse (s : String) : Except ParseError (List Node) :=
  parseData s.data

/-! ### Basic facts about the combinators and matchers -/

/-- Concatenation of the `content` fields of a node sequence. -/
def joinContents (ns : List Node) : List Char :=
  ns.foldr (fun n acc => n.content ++ acc) []

/-- The characters a node actually covered in the input: its `content`,
except that a code node's span also includes the two fence lines that its
`content` excludes. -/
def spanText (n : Node) : List Char :=
  if n.type = .code then
    [bt, bt, bt] ++ n.language.getD [] ++ n.content ++ '\n' :: [bt, bt, bt]
  else n.content

/-- Concatenation of the covered spans of a node sequence. -/
def joinSpans (ns : List Node) : List Char :=
  ns.foldr (fun n acc => spanText n ++ acc) []

/-- Number of leading `#` characters of a character run. -/
def countLeadingHashes (c : List Char) : Nat :=
  (c.takeWhile (· == '#')).length

/-- All the facts the claim proofs need about one fired rule: the node
covers exactly the consumed characters, at least one character is consumed,
the node is located, header levels are the leading-hash count and lie in
1..6, and a `text` node produced by a rule is exactly a newline node. -/
def ruleNodeOK (cs : List Char) (k : Nat) (nd : Node) : Prop :=
  spanText nd = cs.take k ∧ 1 ≤ k ∧ nd.loc.isSome ∧
  (nd.type = .header → ∃ lv, nd.level = some lv ∧ 1 ≤ lv ∧ lv ≤ 6 ∧
    countLeadingHashes nd.content = lv) ∧
  (nd.type = .text → nd.content = ['\n'])

/-- The per-node facts shared by the header-level and `loc`-policy claims. -/
def nodeOK (nd : Node) : Prop :=
  (nd.type = .header → ∃ lv, nd.level = some lv ∧ 1 ≤ lv ∧ lv ≤ 6 ∧
    countLeadingHashes nd.content = lv) ∧
  (nd.type ≠ .text → nd.loc.isSome) ∧
  (nd.type = .text → (nd.loc.isSome ↔ nd.content = ['\n']))

/-- The contiguity relation of the claims: whenever two adjacent nodes both
carry a `loc`, the end of the first is the start of the second. -/
def locContiguous (a b : Node) : Prop :=
  ∀ la lb, a.loc = some la → b.loc = some lb → la.«end» = lb.start

/-- The link span `[t](u)` as a character list. -/
def linkSpan (t u : List Char) : List Char :=
  '[' :: (t ++ ']' :: '(' :: (u ++ [')']))

/-- A fenced code block: three backquotes, the language tag, a newline, the
body `mid`, then a closing fence line. -/
def codeFenceInput (lang mid : List Char) : List Char :=
  bt :: bt :: bt :: (lang ++ '\n' :: (mid ++ '\n' :: [bt, bt, bt]))

/-- The loc-presence rule asserted by the specification for adjacent nodes:
a text node directly following a located node would have to carry a `loc`. -/
def locFollowsClaim (a b : Node) : Prop :=
  a.loc.isSome = true → b.type = .text → b.loc.isSome = true

instance : DecidableRel locFollowsClaim := fun a b =>
  inferInstanceAs (Decidable (a.loc.isSome = true → b.type = .text → b.loc.isSome = true))

theorem firstSome_eq_some {α : Type} {a b : Option α} {r : α} :
    firstSome a b = some r ↔ a = some r ∨ (a = none ∧ b = some r) := by
  cases a <;> simp [firstSome]

theorem firstSome_eq_none {α : Type} {a b : Option α} :
    firstSome a b = none ↔ a = none ∧ b = none := by
  cases a <;> simp [firstSome]

theorem takeWhile_middle {α : Type} (p : α → Bool) (l : List α) (x : α) (r : List α)
    (hl : ∀ c ∈ l, p c = true) (hx : p x = false) :
    (l ++ x :: r).takeWhile p = l := by
  induction l with
  | nil => simp [List.takeWhile_cons, hx]
  | cons a as ih =>
    have ha : p a = true := hl a (by simp)
    simp only [List.cons_append, List.takeWhile_cons, ha, if_true]
    exact congrArg (a :: ·) (ih (fun c hc => hl c (by simp [hc])))

theorem dropWhile_middle {α : Type} (p : α → Bool) (l : List α) (x : α) (r : List α)
    (hl : ∀ c ∈ l, p c = true) (hx : p x = false) :
    (l ++ x :: r).dropWhile p = x :: r := by
  induction l with
  | nil => simp [List.dropWhile_cons, hx]
  | cons a as ih =>
    have ha : p a = true := hl a (by simp)
    simp only [List.cons_append, List.dropWhile_cons, ha, if_true]
    exact ih (fun c hc => hl c (by simp [hc]))

theorem take_middle_eq {α : Type} (a : List α) (x : α) (b c : List α) :
    (a ++ x :: (b ++ c)).take (a.length + 1 + b.length) = a ++ x :: b := by
  rw [show a ++ x :: (b ++ c) = (a ++ x :: b) ++ c by simp]
  exact List.take_left' (by simp [List.length_append]; omega)

theorem matchHeader_spec {cs : List Char} {k : Nat} {raw : RawNode}
    (h : matchHeader cs = some (k, raw)) (l : Loc) : ruleNodeOK cs k (mkNode raw l) := by
  simp only [matchHeader] at h
  split at h
  · split at h
    · rename_i rest heq
      simp only [Option.some.injEq, Prod.mk.injEq] at h
      obtain ⟨rfl, rfl⟩ := h
      rename_i h16
      have hcs : cs = cs.takeWhile (· == '#') ++ ' ' ::
          (rest.takeWhile (· != '\n') ++ rest.dropWhile (· != '\n')) := by
        conv_lhs => rw [← List.takeWhile_append_dropWhile (p := (· == '#')) (l := cs)]
        rw [heq, List.takeWhile_append_dropWhile]
      have htake : cs.take ((cs.takeWhile (· == '#')).length + 1 +
          (rest.takeWhile (· != '\n')).length) =
          cs.takeWhile (· == '#') ++ ' ' :: rest.takeWhile (· != '\n') := by
        nth_rewrite 2 [hcs]
        exact take_middle_eq _ _ _ _
      refine ⟨?_, by omega, by simp [mkNode, headerNode], ?_, by simp [mkNode, headerNode]⟩
      · simp [mkNode, headerNode, spanText]
      · intro _
        refine ⟨(cs.takeWhile (· == '#')).length, by simp [mkNode, headerNode], by omega,
          by omega, ?_⟩
        simp only [mkNode, headerNode, countLeadingHashes, htake]
        rw [takeWhile_middle _ _ _ _
          (fun c hc => List.mem_takeWhile_imp (p := fun x => x == '#') (l := cs) hc)
          (by decide)]
    · simp at h
  · simp at h

theorem matchBoldD_spec {d : Char} {cs : List Char} {k : Nat} {raw : RawNode}
    (h : matchBoldD d cs = some (k, raw)) (l : Loc) : ruleNodeOK cs k (mkNode raw l) := by
  simp only [matchBoldD] at h
  split at h
  · split at h
    · split at h
      · simp only [Option.some.injEq, Prod.mk.injEq] at h
        obtain ⟨rfl, rfl⟩ := h
        exact ⟨by simp [mkNode, boldNode, spanText], by omega,
          by simp [mkNode, boldNode], by simp [mkNode, boldNode], by simp [mkNode, boldNode]⟩
      · simp at h
    · simp at h
  · simp at h

theorem matchItalicD_spec {d : Char} {cs : List Char} {k : Nat} {raw : RawNode}
    (h : matchItalicD d cs = some (k, raw)) (l : Loc) : ruleNodeOK cs k (mkNode raw l) := by
  simp only [matchItalicD] at h
  split at h
  · split at h
    · split at h
      · simp only [Option.some.injEq, Prod.mk.injEq] at h
        obtain ⟨rfl, rfl⟩ := h
        exact ⟨by simp [mkNode, italicNode, spanText], by omega,
          by simp [mkNode, italicNode], by simp [mkNode, italicNode],
          by simp [mkNode, italicNode]⟩
      · simp at h
    · simp at h
  · simp at h

theorem matchLink_spec {cs : List Char} {k : Nat} {raw : RawNode}
    (h : matchLink cs = some (k, raw)) (l : Loc) : ruleNodeOK cs k (mkNode raw l) := by
  simp only [matchLink] at h
  split at h
  · split at h
    · split at h
      · split at h
        · split at h
          · split at h
            · simp only [Option.some.injEq, Prod.mk.injEq] at h
              obtain ⟨rfl, rfl⟩ := h
              exact ⟨by simp [mkNode, linkNode, spanText], by omega,
                by simp [mkNode, linkNode], by simp [mkNode, linkNode],
                by simp [mkNode, linkNode]⟩
            · simp at h
          · simp at h
        · simp at h
      · simp at h
    · simp at h
  · simp at h

theorem matchList_spec {cs : List Char} {k : Nat} {raw : RawNode}
    (h : matchList cs = some (k, raw)) (l : Loc) : ruleNodeOK cs k (mkNode raw l) := by
  simp only [matchList] at h
  split at h
  · split at h
    · simp only [Option.some.injEq, Prod.mk.injEq] at h
      obtain ⟨rfl, rfl⟩ := h
      exact ⟨by simp [mkNode, listNode, spanText], by omega,
        by simp [mkNode, listNode], by simp [mkNode, listNode], by simp [mkNode, listNode]⟩
    · simp at h
  · simp at h

theorem matchNewline_spec {cs : List Char} {k : Nat} {raw : RawNode}
    (h : matchNewline cs = some (k, raw)) (l : Loc) : ruleNodeOK cs k (mkNode raw l) := by
  simp only [matchNewline] at h
  split at h
  · split at h
    · rename_i hC
      simp only [Option.some.injEq, Prod.mk.injEq] at h
      obtain ⟨rfl, rfl⟩ := h
      subst hC
      exact ⟨by simp [mkNode, textNode, spanText], by omega,
        by simp [mkNode, textNode], by simp [mkNode, textNode], by simp [mkNode, textNode]⟩
    · simp at h
  · simp at h

theorem isCloseAt_take4 {l : List Char} (h : isCloseAt l = true) :
    l.take 4 = ['\n', bt, bt, bt] := (of_decide_eq_true h).1

theorem isCloseAt_length {l : List Char} (h : isCloseAt l = true) : 4 ≤ l.length := by
  have h4 : (l.take 4).length = 4 := by rw [isCloseAt_take4 h]; rfl
  have h5 : min 4 l.length = 4 := by simpa [List.length_take] using h4
  omega

theorem findClose_isCloseAt {l : List Char} {i : Nat} (h : findClose l = some i) :
    isCloseAt (l.drop i) = true := by
  induction l generalizing i with
  | nil => simp [findClose] at h
  | cons c rest ih =>
    rw [findClose] at h
    split at h
    · rename_i hc
      obtain rfl : (0 : Nat) = i := Option.some.inj h
      simpa using hc
    · obtain ⟨j, hj, rfl⟩ := Option.map_eq_some'.1 h
      simpa using ih hj

theorem findClose_eq {l : List Char} {i : Nat}
    (hlt : ∀ j, j < i → isCloseAt (l.drop j) = false)
    (hi : isCloseAt (l.drop i) = true) : findClose l = some i := by
  induction l generalizing i with
  | nil => rw [List.drop_nil] at hi; simp [isCloseAt] at hi
  | cons c rest ih =>
    rw [findClose]
    cases i with
    | zero =>
      rw [List.drop_zero] at hi
      simp [hi]
    | succ j =>
      have h0 : isCloseAt (c :: rest) = false := by simpa using hlt 0 (Nat.succ_pos _)
      rw [h0]
      simp only [Bool.false_eq_true, if_false]
      rw [ih (i := j) (fun m hm => by simpa using hlt (m + 1) (by omega)) (by simpa using hi)]
      rfl

theorem matchCode_spec {cs : List Char} {k : Nat} {raw : RawNode}
    (h : matchCode cs = some (k, raw)) (l : Loc) : ruleNodeOK cs k (mkNode raw l) := by
  simp only [matchCode] at h
  split at h
  · rename_i htake3
    split at h
    · rename_i hhead
      split at h
      · rename_i i hfc
        simp only [Option.some.injEq, Prod.mk.injEq] at h
        obtain ⟨rfl, rfl⟩ := h
        set lang := (cs.drop 3).takeWhile (fun c => c != '\n' && c != bt) with hlang
        set rest := (cs.drop 3).dropWhile (fun c => c != '\n' && c != bt) with hrest0
        have hsplit0 : cs.drop 3 = lang ++ rest :=
          (List.takeWhile_append_dropWhile _ _).symm
        have hICA := findClose_isCloseAt hfc
        have h4 := isCloseAt_take4 hICA
        have hlen4 := isCloseAt_length hICA
        have hile : i ≤ rest.length := by
          rw [List.length_drop] at hlen4
          omega
        have hrest : rest = rest.take i ++ ('\n' :: [bt, bt, bt] ++ (rest.drop i).drop 4) := by
          conv_lhs => rw [← List.take_append_drop i rest]
          congr 1
          conv_lhs => rw [← List.take_append_drop 4 (rest.drop i)]
          rw [h4]
        have e1 : cs = [bt, bt, bt] ++ (lang ++ rest) := by
          conv_lhs => rw [← List.take_append_drop 3 cs]
          rw [htake3, hsplit0]
        have hP : cs = [bt, bt, bt] ++ (lang ++ (rest.take i ++
            ('\n' :: [bt, bt, bt] ++ (rest.drop i).drop 4))) := by
          rw [← hrest]
          exact e1
        have htakek : cs.take (3 + lang.length + i + 4) =
            [bt, bt, bt] ++ lang ++ rest.take i ++ ('\n' :: [bt, bt, bt]) := by
          rw [hP]
          rw [show [bt, bt, bt] ++ (lang ++ (rest.take i ++
              ('\n' :: [bt, bt, bt] ++ (rest.drop i).drop 4))) =
              ([bt, bt, bt] ++ lang ++ rest.take i ++ ('\n' :: [bt, bt, bt])) ++
              (rest.drop i).drop 4 by simp]
          exact List.take_left' (by
            simp [List.length_append, List.length_take]
            omega)
        refine ⟨?_, by omega, by simp [mkNode, codeNode], by simp [mkNode, codeNode],
          by simp [mkNode, codeNode]⟩
        simp only [mkNode, codeNode, spanText]
        simpa using htakek.symm
      · simp at h
    · simp at h
  · simp at h

theorem ifGate_eq_some {α : Type} {ls : Bool} {o : Option α} {r : α}
    (h : (if ls then o else none) = some r) : o = some r := by
  cases ls
  · simp at h
  · simpa using h

theorem matchBold_spec {cs : List Char} {k : Nat} {raw : RawNode}
    (h : matchBold cs = some (k, raw)) (l : Loc) : ruleNodeOK cs k (mkNode raw l) := by
  rcases firstSome_eq_some.1 h with h' | ⟨-, h'⟩
  exacts [matchBoldD_spec h' l, matchBoldD_spec h' l]

theorem matchItalic_spec {cs : List Char} {k : Nat} {raw : RawNode}
    (h : matchItalic cs = some (k, raw)) (l : Loc) : ruleNodeOK cs k (mkNode raw l) := by
  rcases firstSome_eq_some.1 h with h' | ⟨-, h'⟩
  exacts [matchItalicD_spec h' l, matchItalicD_spec h' l]

theorem tryRules_spec {ls : Bool} {cs : List Char} {k : Nat} {raw : RawNode}
    (h : tryRules ls cs = some (k, raw)) (l : Loc) : ruleNodeOK cs k (mkNode raw l) := by
  unfold tryRules at h
  rcases firstSome_eq_some.1 h with h1 | ⟨-, h⟩
  · exact matchHeader_spec (ifGate_eq_some h1) l
  rcases firstSome_eq_some.1 h with h1 | ⟨-, h⟩
  · exact matchCode_spec (ifGate_eq_some h1) l
  rcases firstSome_eq_some.1 h with h1 | ⟨-, h⟩
  · exact matchBold_spec h1 l
  rcases firstSome_eq_some.1 h with h1 | ⟨-, h⟩
  · exact matchItalic_spec h1 l
  rcases firstSome_eq_some.1 h with h1 | ⟨-, h⟩
  · exact matchLink_spec h1 l
  rcases firstSome_eq_some.1 h with h1 | ⟨-, h⟩
  · exact matchList_spec (ifGate_eq_some h1) l
  exact matchNewline_spec h l

theorem tryRules_none_not_newline {ls : Bool} {rest : List Char}
    (h : tryRules ls ('\n' :: rest) = none) : False := by
  unfold tryRules at h
  obtain ⟨-, h⟩ := firstSome_eq_none.1 h
  obtain ⟨-, h⟩ := firstSome_eq_none.1 h
  obtain ⟨-, h⟩ := firstSome_eq_none.1 h
  obtain ⟨-, h⟩ := firstSome_eq_none.1 h
  obtain ⟨-, h⟩ := firstSome_eq_none.1 h
  obtain ⟨-, h⟩ := firstSome_eq_none.1 h
  simp [matchNewline] at h

theorem tryRules_progress {ls : Bool} {cs : List Char} {k : Nat} {raw : RawNode}
    (h : tryRules ls cs = some (k, raw)) : 1 ≤ k :=
  (tryRules_spec h ⟨⟨0, 1, 1⟩, ⟨0, 1, 1⟩⟩).2.1

theorem matchHeader_none_head {c : Char} (h : (c == '#') = false) (rest : List Char) :
    matchHeader (c :: rest) = none := by
  simp [matchHeader, List.takeWhile_cons, h]

theorem matchCode_none_head {c : Char} (h : c ≠ bt) (rest : List Char) :
    matchCode (c :: rest) = none := by
  simp [matchCode, show (c :: rest).take 3 = c :: rest.take 2 from rfl, h]

theorem matchBoldD_none_head {d c : Char} (h : c ≠ d) (rest : List Char) :
    matchBoldD d (c :: rest) = none := by
  cases rest with
  | nil => rfl
  | cons c2 r2 => simp [matchBoldD, h]

theorem matchBold_none_head {c : Char} (h1 : c ≠ '*') (h2 : c ≠ '_') (rest : List Char) :
    matchBold (c :: rest) = none := by
  simp [matchBold, firstSome, matchBoldD_none_head h1 rest, matchBoldD_none_head h2 rest]

theorem matchItalicD_none_head {d c : Char} (h : c ≠ d) (rest : List Char) :
    matchItalicD d (c :: rest) = none := by
  simp [matchItalicD, h]

theorem matchItalic_none_head {c : Char} (h1 : c ≠ '*') (h2 : c ≠ '_') (rest : List Char) :
    matchItalic (c :: rest) = none := by
  simp [matchItalic, firstSome, matchItalicD_none_head h1 rest, matchItalicD_none_head h2 rest]

theorem matchLink_none_head {c : Char} (h : c ≠ '[') (rest : List Char) :
    matchLink (c :: rest) = none := by
  simp [matchLink, h]

theorem matchList_none_head {c : Char} (h : c ≠ '*') (rest : List Char) :
    matchList (c :: rest) = none := by
  cases rest with
  | nil => rfl
  | cons c2 r2 => simp [matchList, h]

theorem matchNewline_none_head {c : Char} (h : c ≠ '\n') (rest : List Char) :
    matchNewline (c :: rest) = none := by
  simp [matchNewline, h]

theorem parseLoopF_nil (fuel : Nat) (pos : Position) (buf : List Char) :
    parseLoopF fuel [] pos buf = some (flushBuf buf) := by
  cases fuel <;> simp [parseLoopF]

theorem parseLoopF_isSome (fuel : Nat) : ∀ (cs : List Char) (pos : Position)
    (buf : List Char), cs.length ≤ fuel → (parseLoopF fuel cs pos buf).isSome = true := by
  induction fuel with
  | zero =>
    intro cs pos buf h
    obtain rfl : cs = [] := List.length_eq_zero.1 (Nat.le_zero.1 h)
    simp [parseLoopF]
  | succ n ih =>
    intro cs pos buf h
    cases cs with
    | nil => simp [parseLoopF_nil]
    | cons c rest =>
      rw [parseLoopF]
      cases htr : tryRules (pos.column == 1) (c :: rest) with
      | some kr =>
        obtain ⟨k, raw⟩ := kr
        have hk : 1 ≤ k := tryRules_progress htr
        dsimp only
        have hlen : ((c :: rest).drop k).length ≤ n := by
          simp only [List.length_cons] at h
          simp [List.length_drop]
          omega
        obtain ⟨ns, hns⟩ := Option.isSome_iff_exists.1
          (ih _ (advance pos ((c :: rest).take k)) [] hlen)
        rw [hns]
        rfl
      | none =>
        dsimp only
        refine ih _ _ _ ?_
        simp only [List.length_cons] at h
        omega

/-! ### The three master invariants of the scanning loop -/

theorem joinSpans_cons (n : Node) (ns : List Node) :
    joinSpans (n :: ns) = spanText n ++ joinSpans ns := rfl

theorem joinSpans_append (a b : List Node) :
    joinSpans (a ++ b) = joinSpans a ++ joinSpans b := by
  induction a with
  | nil => rfl
  | cons x xs ih => simp [joinSpans_cons, ih, List.append_assoc]

theorem spanText_textNode (c : List Char) (l : Option Loc) :
    spanText (textNode c l) = c := by
  simp [spanText, textNode]

theorem joinSpans_flush (buf : List Char) : joinSpans (flushBuf buf) = buf := by
  by_cases h : buf = []
  · simp [flushBuf, h, joinSpans]
  · simp [flushBuf, h, joinSpans, spanText_textNode]

theorem mkNode_loc (raw : RawNode) (l : Loc) : (mkNode raw l).loc = some l := by
  cases raw <;> rfl

theorem parseLoopF_joinSpans (fuel : Nat) : ∀ (cs : List Char) (pos : Position)
    (buf : List Char) (ns : List Node), parseLoopF fuel cs pos buf = some ns →
    joinSpans ns = buf ++ cs := by
  induction fuel with
  | zero =>
    intro cs pos buf ns h
    rw [parseLoopF] at h
    split at h
    · rename_i hcs
      obtain rfl := Option.some.inj h
      subst hcs
      simp [joinSpans_flush]
    · simp at h
  | succ n ih =>
    intro cs pos buf ns h
    cases cs with
    | nil =>
      rw [parseLoopF_nil] at h
      obtain rfl := Option.some.inj h
      simp [joinSpans_flush]
    | cons c rest =>
      rw [parseLoopF] at h
      cases htr : tryRules (pos.column == 1) (c :: rest) with
      | some kr =>
        obtain ⟨k, raw⟩ := kr
        rw [htr] at h
        dsimp only at h
        obtain ⟨ns', hns', rfl⟩ := Option.map_eq_some'.1 h
        have hspan := (tryRules_spec htr
          ⟨pos, advance pos ((c :: rest).take k)⟩).1
        rw [joinSpans_append, joinSpans_flush, joinSpans_cons, hspan, ih _ _ _ _ hns']
        simp [List.take_append_drop]
      | none =>
        rw [htr] at h
        dsimp only at h
        rw [ih _ _ _ _ h]
        simp

theorem nodeOK_flush {buf : List Char} (hnl : ∀ c ∈ buf, c ≠ '\n')
    {nd : Node} (h : nd ∈ flushBuf buf) : nodeOK nd := by
  unfold flushBuf at h
  split at h
  · simp at h
  · rename_i hb
    simp at h
    subst h
    have hne : buf ≠ ['\n'] := fun hb2 => hnl '\n' (by simp [hb2]) rfl
    exact ⟨by simp [textNode], by simp [textNode], by simp [textNode, hne]⟩

theorem nodeOK_of_rule {cs : List Char} {k : Nat} {nd : Node}
    (h : ruleNodeOK cs k nd) : nodeOK nd := by
  obtain ⟨-, -, hloc, hheader, htext⟩ := h
  exact ⟨hheader, fun _ => hloc, fun ht => by simp [hloc, htext ht]⟩

theorem parseLoopF_nodeOK (fuel : Nat) : ∀ (cs : List Char) (pos : Position)
    (buf : List Char) (ns : List Node), (∀ c ∈ buf, c ≠ '\n') →
    parseLoopF fuel cs pos buf = some ns → ∀ nd ∈ ns, nodeOK nd := by
  induction fuel with
  | zero =>
    intro cs pos buf ns hnl h
    rw [parseLoopF] at h
    split at h
    · obtain rfl := Option.some.inj h
      exact fun nd hnd => nodeOK_flush hnl hnd
    · simp at h
  | succ n ih =>
    intro cs pos buf ns hnl h
    cases cs with
    | nil =>
      rw [parseLoopF_nil] at h
      obtain rfl := Option.some.inj h
      exact fun nd hnd => nodeOK_flush hnl hnd
    | cons c rest =>
      rw [parseLoopF] at h
      cases htr : tryRules (pos.column == 1) (c :: rest) with
      | some kr =>
        obtain ⟨k, raw⟩ := kr
        rw [htr] at h
        dsimp only at h
        obtain ⟨ns', hns', rfl⟩ := Option.map_eq_some'.1 h
        intro nd hnd
        rcases List.mem_append.1 hnd with hnd | hnd
        · exact nodeOK_flush hnl hnd
        · rcases List.mem_cons.1 hnd with rfl | hnd
          · exact nodeOK_of_rule (tryRules_spec htr _)
          · exact ih _ _ _ _ (by simp) hns' nd hnd
      | none =>
        rw [htr] at h
        dsimp only at h
        have hc : c ≠ '\n' := fun hc => tryRules_none_not_newline (hc ▸ htr)
        refine ih _ _ _ _ ?_ h
        intro x hx
        rcases List.mem_append.1 hx with hx | hx
        · exact hnl x hx
        · simp at hx
          subst hx
          exact hc

theorem parseLoopF_headNone (fuel : Nat) : ∀ (cs : List Char) (pos : Position)
    (buf : List Char) (ns : List Node), buf ≠ [] →
    parseLoopF fuel cs pos buf = some ns →
    ∃ nd tl, ns = nd :: tl ∧ nd.loc = none := by
  induction fuel with
  | zero =>
    intro cs pos buf ns hb h
    rw [parseLoopF] at h
    split at h
    · obtain rfl := Option.some.inj h
      exact ⟨textNode buf none, [], by simp [flushBuf, hb], rfl⟩
    · simp at h
  | succ n ih =>
    intro cs pos buf ns hb h
    cases cs with
    | nil =>
      rw [parseLoopF_nil] at h
      obtain rfl := Option.some.inj h
      exact ⟨textNode buf none, [], by simp [flushBuf, hb], rfl⟩
    | cons c rest =>
      rw [parseLoopF] at h
      cases htr : tryRules (pos.column == 1) (c :: rest) with
      | some kr =>
        obtain ⟨k, raw⟩ := kr
        rw [htr] at h
        dsimp only at h
        obtain ⟨ns', -, rfl⟩ := Option.map_eq_some'.1 h
        exact ⟨textNode buf none,
          mkNode raw ⟨pos, advance pos ((c :: rest).take k)⟩ :: ns',
          by simp [flushBuf, hb], rfl⟩
      | none =>
        rw [htr] at h
        dsimp only at h
        exact ih _ _ _ _ (by simp) h

theorem parseLoopF_chain (fuel : Nat) : ∀ (cs : List Char) (pos : Position)
    (buf : List Char) (ns : List Node), parseLoopF fuel cs pos buf = some ns →
    List.Chain' locContiguous ns ∧
    (buf = [] → ∀ nd tl la, ns = nd :: tl → nd.loc = some la → la.start = pos) := by
  induction fuel with
  | zero =>
    intro cs pos buf ns h
    rw [parseLoopF] at h
    split at h
    · obtain rfl := Option.some.inj h
      constructor
      · unfold flushBuf
        split <;> simp
      · intro hb nd tl la heq hla
        subst hb
        simp [flushBuf] at heq
    · simp at h
  | succ n ih =>
    intro cs pos buf ns h
    cases cs with
    | nil =>
      rw [parseLoopF_nil] at h
      obtain rfl := Option.some.inj h
      constructor
      · unfold flushBuf
        split <;> simp
      · intro hb nd tl la heq hla
        subst hb
        simp [flushBuf] at heq
    | cons c rest =>
      rw [parseLoopF] at h
      cases htr : tryRules (pos.column == 1) (c :: rest) with
      | some kr =>
        obtain ⟨k, raw⟩ := kr
        rw [htr] at h
        dsimp only at h
        obtain ⟨ns', hns', rfl⟩ := Option.map_eq_some'.1 h
        obtain ⟨hch', hhd'⟩ := ih _ _ _ _ hns'
        have hnodeloc := mkNode_loc raw ⟨pos, advance pos ((c :: rest).take k)⟩
        have hcons : List.Chain' locContiguous
            (mkNode raw ⟨pos, advance pos ((c :: rest).take k)⟩ :: ns') := by
          refine List.Chain'.cons' hch' ?_
          intro y hy la lb hla hlb
          cases ns' with
          | nil => simp at hy
          | cons z zs =>
            simp at hy
            subst hy
            have hstart := hhd' rfl z zs lb rfl hlb
            rw [hnodeloc] at hla
            obtain rfl := Option.some.inj hla
            exact hstart.symm
        constructor
        · rcases eq_or_ne buf [] with rfl | hb
          · simpa [flushBuf] using hcons
          · have hf : flushBuf buf = [textNode buf none] := by simp [flushBuf, hb]
            rw [hf]
            simp only [List.cons_append, List.nil_append]
            rw [List.chain'_cons]
            refine ⟨?_, hcons⟩
            intro la lb hla hlb
            simp [textNode] at hla
        · intro hb nd tl la heq hla
          subst hb
          simp only [flushBuf, if_pos rfl, List.nil_append] at heq
          obtain ⟨rfl, -⟩ := List.cons.inj heq.symm
          rw [hnodeloc] at hla
          obtain rfl := Option.some.inj hla
          rfl
      | none =>
        rw [htr] at h
        dsimp only at h
        obtain ⟨hch, -⟩ := ih _ _ _ _ h
        refine ⟨hch, ?_⟩
        intro hb nd tl la heq hla
        obtain ⟨nd0, tl0, heq0, hloc0⟩ :=
          parseLoopF_headNone n rest (advanceChar pos c) (buf ++ [c]) ns (by simp) h
        rw [heq0] at heq
        obtain ⟨rfl, -⟩ := List.cons.inj heq
        rw [hloc0] at hla
        simp at hla

/-! ### Parse-level wrappers -/

theorem parseData_ok {cs : List Char} (h : cs ≠ []) :
    ∃ ns, parseData cs = .ok ns ∧
      parseLoopF cs.length cs startPosition [] = some ns := by
  obtain ⟨ns, hns⟩ := Option.isSome_iff_exists.1
    (parseLoopF_isSome cs.length cs startPosition [] le_rfl)
  exact ⟨ns, by simp [parseData, h, hns], hns⟩

theorem parse_ok_elim {s : String} {ns : List Node} (h : parse s = .ok ns) :
    s.data ≠ [] ∧ parseLoopF s.data.length s.data startPosition [] = some ns := by
  by_cases hd : s.data = []
  · rw [parse, parseData, if_pos hd] at h
    simp at h
  · refine ⟨hd, ?_⟩
    obtain ⟨ns', hok, hloop⟩ := parseData_ok hd
    rw [parse, hok] at h
    obtain rfl := Except.ok.inj h
    exact hloop

theorem data_nil_iff {s : String} : s.data = [] ↔ s = "" :=
  ⟨fun h => String.ext h, fun h => by subst h; rfl⟩

theorem parseData_first_node {c : Char} {rest : List Char} {k : Nat} {raw : RawNode}
    (htr : tryRules true (c :: rest) = some (k, raw)) :
    ∃ ns', parseData (c :: rest) = .ok (mkNode raw ⟨startPosition,
        advance startPosition ((c :: rest).take k)⟩ :: ns') ∧
      parseLoopF rest.length ((c :: rest).drop k)
        (advance startPosition ((c :: rest).take k)) [] = some ns' := by
  have hk := tryRules_progress htr
  obtain ⟨ns', hns'⟩ := Option.isSome_iff_exists.1 (parseLoopF_isSome rest.length
    ((c :: rest).drop k) (advance startPosition ((c :: rest).take k)) []
    (by simp [List.length_drop]; omega))
  refine ⟨ns', ?_, hns'⟩
  have htr' : tryRules (startPosition.column == 1) (c :: rest) = some (k, raw) := htr
  rw [parseData, if_neg (by simp)]
  rw [show (c :: rest).length = rest.length + 1 from rfl]
  rw [parseLoopF]
  dsimp only
  rw [htr']
  dsimp only
  rw [hns']
  rfl

/-- Claim C4: a single `*` followed by a space at line start always opens a
list item, never an italic run: for every input beginning `* `, the first
emitted node is a `list` node covering the rest of the line; `* item` is a
single list node, `*italic*` a single italic node, and `* *x*` a single
list node (the leading token is classified as `list`). -/
theorem claim4_list_vs_italic :
    (∀ rest : List Char, ∃ nd ns, parse ('*' :: ' ' :: rest).asString = .ok (nd :: ns) ∧
      nd.type = .list ∧ nd.content = '*' :: ' ' :: rest.takeWhile (· != '\n')) ∧
    parse "* item" = .ok [listNode ("* item").data ⟨⟨0, 1, 1⟩, ⟨6, 1, 7⟩⟩] ∧
    parse "*italic*" = .ok [italicNode ("*italic*").data ⟨⟨0, 1, 1⟩, ⟨8, 1, 9⟩⟩] ∧
    parse "* *x*" = .ok [listNode ("* *x*").data ⟨⟨0, 1, 1⟩, ⟨5, 1, 6⟩⟩] := by
  refine ⟨?_, rfl, rfl, rfl⟩
  intro rest
  have hheader : matchHeader ('*' :: ' ' :: rest) = none := by
    simp [matchHeader, List.takeWhile_cons]
  have hcode : matchCode ('*' :: ' ' :: rest) = none := by
    simp [matchCode, show ('*' :: ' ' :: rest).take 3 = '*' :: ' ' :: rest.take 1 from rfl,
      show ('*' : Char) ≠ bt from by decide]
  have hbold : matchBold ('*' :: ' ' :: rest) = none := by
    simp [matchBold, matchBoldD, firstSome]
  have hitalic : matchItalic ('*' :: ' ' :: rest) = none := by
    simp [matchItalic, matchItalicD, firstSome]
  have hlink : matchLink ('*' :: ' ' :: rest) = none := by
    simp [matchLink]
  have hlist : matchList ('*' :: ' ' :: rest) =
      some (2 + (rest.takeWhile (· != '\n')).length,
        .list (('*' :: ' ' :: rest).take (2 + (rest.takeWhile (· != '\n')).length))) := rfl
  have htr : tryRules true ('*' :: ' ' :: rest) =
      some (2 + (rest.takeWhile (· != '\n')).length,
        .list (('*' :: ' ' :: rest).take (2 + (rest.takeWhile (· != '\n')).length))) := by
    unfold tryRules
    simp [firstSome, hheader, hcode, hbold, hitalic, hlink, hlist]
  obtain ⟨ns', hok, -⟩ := parseData_first_node htr
  have htake : ('*' :: ' ' :: rest).take (2 + (rest.takeWhile (· != '\n')).length) =
      '*' :: ' ' :: rest.takeWhile (· != '\n') := by
    rw [show 2 + (rest.takeWhile (· != '\n')).length =
        (rest.takeWhile (· != '\n')).length + 2 from by omega]
    rw [show ('*' :: ' ' :: rest).take ((rest.takeWhile (· != '\n')).length + 2) =
        '*' :: ' ' :: rest.take ((rest.takeWhile (· != '\n')).length) from rfl]
    have h0 : rest = rest.takeWhile (· != '\n') ++ rest.dropWhile (· != '\n') :=
      (List.takeWhile_append_dropWhile _ _).symm
    nth_rewrite 2 [h0]
    exact congrArg (fun t => '*' :: ' ' :: t)
      (@List.take_left' Char (rest.takeWhile (· != '\n'))
        (rest.dropWhile (· != '\n')) _ rfl)
  exact ⟨_, ns', hok, by simp [mkNode, listNode], by simp [mkNode, listNode, htake]⟩

/-- Claim C9: for every input of the form `[t](u)` where `t` has no `]` and
`u` has no `)`, parse emits a single link node with `text` t, `url` u and
`content` the whole bracketed span, with no URL validation; in particular
`[Google](https://google.com)` parses to exactly that link node. -/
theorem claim9_link :
    (∀ t u : List Char, (∀ c ∈ t, c ≠ ']') → (∀ c ∈ u, c ≠ ')') →
      parse (linkSpan t u).asString =
        .ok [linkNode t u (linkSpan t u)
          ⟨startPosition, advance startPosition (linkSpan t u)⟩]) ∧
    parse "[Google](https://google.com)" =
      .ok [linkNode ("Google").data ("https://google.com").data
        ("[Google](https://google.com)").data ⟨⟨0, 1, 1⟩, ⟨28, 1, 29⟩⟩] := by
  refine ⟨?_, rfl⟩
  intro t u ht hu
  have htw1 : (t ++ ']' :: '(' :: (u ++ [')'])).takeWhile (· != ']') = t :=
    takeWhile_middle _ _ _ _ (fun c hc => by simpa using ht c hc) (by decide)
  have hdw1 : (t ++ ']' :: '(' :: (u ++ [')'])).dropWhile (· != ']') =
      ']' :: '(' :: (u ++ [')']) :=
    dropWhile_middle _ _ _ _ (fun c hc => by simpa using ht c hc) (by decide)
  have htw2 : (u ++ [')']).takeWhile (· != ')') = u :=
    takeWhile_middle _ _ _ _ (fun c hc => by simpa using hu c hc) (by decide)
  have hdw2 : (u ++ [')']).dropWhile (· != ')') = [')'] :=
    dropWhile_middle _ _ _ _ (fun c hc => by simpa using hu c hc) (by decide)
  have hlk : matchLink ('[' :: (t ++ ']' :: '(' :: (u ++ [')']))) =
      some (1 + t.length + 2 + u.length + 1,
        .link t u (('[' :: (t ++ ']' :: '(' :: (u ++ [')']))).take
          (1 + t.length + 2 + u.length + 1))) := by
    simp [matchLink, htw1, hdw1, htw2, hdw2]
  have hH : matchHeader ('[' :: (t ++ ']' :: '(' :: (u ++ [')']))) = none :=
    matchHeader_none_head (by decide) _
  have hC : matchCode ('[' :: (t ++ ']' :: '(' :: (u ++ [')']))) = none :=
    matchCode_none_head (by decide) _
  have hB : matchBold ('[' :: (t ++ ']' :: '(' :: (u ++ [')']))) = none :=
    matchBold_none_head (by decide) (by decide) _
  have hI : matchItalic ('[' :: (t ++ ']' :: '(' :: (u ++ [')']))) = none :=
    matchItalic_none_head (by decide) (by decide) _
  have htr : tryRules true ('[' :: (t ++ ']' :: '(' :: (u ++ [')']))) =
      some (1 + t.length + 2 + u.length + 1,
        .link t u (('[' :: (t ++ ']' :: '(' :: (u ++ [')']))).take
          (1 + t.length + 2 + u.length + 1))) := by
    unfold tryRules
    simp [firstSome, hH, hC, hB, hI, hlk]
  obtain ⟨ns', hok, hloop⟩ := parseData_first_node htr
  have hklen : 1 + t.length + 2 + u.length + 1 =
      ('[' :: (t ++ ']' :: '(' :: (u ++ [')']))).length := by
    simp [List.length_append]
    omega
  rw [hklen, List.drop_length, parseLoopF_nil] at hloop
  obtain rfl := Option.some.inj hloop
  rw [hklen, List.take_length] at hok
  exact hok

/-- Claim C6: a fenced code block with a closing fence parses to a single
code node whose `content` is the text between the fence lines (fence lines
excluded, the newline after the opening fence included) and whose
`language` is the fence's tag (empty when absent); in particular
parse("```\ncode\n```") is exactly one code node with content "\ncode" and
empty language, plus a `loc`. -/
theorem claim6_code_block :
    (∀ lang mid : List Char, (∀ c ∈ lang, c ≠ '\n' ∧ c ≠ bt) →
      (∀ j, j < 1 + mid.length →
        isCloseAt (('\n' :: (mid ++ '\n' :: [bt, bt, bt])).drop j) = false) →
      parse (codeFenceInput lang mid).asString =
        .ok [codeNode ('\n' :: mid) lang
          ⟨startPosition, advance startPosition (codeFenceInput lang mid)⟩]) ∧
    parse "```\ncode\n```" =
      .ok [codeNode ("\ncode").data [] ⟨⟨0, 1, 1⟩, ⟨12, 3, 4⟩⟩] := by
  refine ⟨?_, rfl⟩
  intro lang mid hlang hclose
  have hmemlang : ∀ c ∈ lang, ((c != '\n') && (c != bt)) = true := by
    intro c hc
    have hh := hlang c hc
    simp [Bool.and_eq_true, bne_iff_ne]
    exact hh
  have htwlang : (lang ++ '\n' :: (mid ++ '\n' :: [bt, bt, bt])).takeWhile
      (fun c => c != '\n' && c != bt) = lang :=
    takeWhile_middle _ _ _ _ hmemlang (by decide)
  have hdwlang : (lang ++ '\n' :: (mid ++ '\n' :: [bt, bt, bt])).dropWhile
      (fun c => c != '\n' && c != bt) = '\n' :: (mid ++ '\n' :: [bt, bt, bt]) :=
    dropWhile_middle _ _ _ _ hmemlang (by decide)
  have hdropm : ('\n' :: (mid ++ '\n' :: [bt, bt, bt])).drop (1 + mid.length) =
      '\n' :: [bt, bt, bt] := by
    rw [show 1 + mid.length = mid.length + 1 from by omega, List.drop_succ_cons]
    exact @List.drop_left' Char mid ('\n' :: [bt, bt, bt]) _ rfl
  have htakem : ('\n' :: (mid ++ '\n' :: [bt, bt, bt])).take (1 + mid.length) =
      '\n' :: mid := by
    rw [show 1 + mid.length = mid.length + 1 from by omega, List.take_succ_cons]
    rw [@List.take_left' Char mid ('\n' :: [bt, bt, bt]) _ rfl]
  have hfc : findClose ('\n' :: (mid ++ '\n' :: [bt, bt, bt])) = some (1 + mid.length) :=
    findClose_eq hclose (by rw [hdropm]; decide)
  have hcodeM : matchCode (codeFenceInput lang mid) =
      some (3 + lang.length + (1 + mid.length) + 4, .code ('\n' :: mid) lang) := by
    simp only [codeFenceInput, matchCode,
      show (bt :: bt :: bt :: (lang ++ '\n' :: (mid ++ '\n' :: [bt, bt, bt]))).take 3 =
        [bt, bt, bt] from rfl,
      show (bt :: bt :: bt :: (lang ++ '\n' :: (mid ++ '\n' :: [bt, bt, bt]))).drop 3 =
        lang ++ '\n' :: (mid ++ '\n' :: [bt, bt, bt]) from rfl,
      htwlang, hdwlang, hfc, htakem]
    simp
  have htr : tryRules true (codeFenceInput lang mid) =
      some (3 + lang.length + (1 + mid.length) + 4, .code ('\n' :: mid) lang) := by
    unfold tryRules
    have hH : matchHeader (codeFenceInput lang mid) = none :=
      matchHeader_none_head (by decide) _
    simp [firstSome, hH, hcodeM]
  obtain ⟨ns', hok, hloop⟩ := parseData_first_node htr
  have hklen : 3 + lang.length + (1 + mid.length) + 4 =
      (bt :: bt :: bt :: (lang ++ '\n' :: (mid ++ '\n' :: [bt, bt, bt]))).length := by
    simp [List.length_append]
    omega
  rw [hklen, List.drop_length, parseLoopF_nil] at hloop
  obtain rfl := Option.some.inj hloop
  rw [hklen, List.take_length] at hok
  exact hok

/-- Claim C1 (counterexample): the coverage invariant fails as stated — a
fenced code block parses to a single code node whose `content` omits the
fence lines, so concatenating `content` fields does not reproduce the
input. -/
theorem claim1_counterexample :
    parse "```\ncode\n```" =
      .ok [codeNode ("\ncode").data [] ⟨⟨0, 1, 1⟩, ⟨12, 3, 4⟩⟩] ∧
    joinContents [codeNode ("\ncode").data [] ⟨⟨0, 1, 1⟩, ⟨12, 3, 4⟩⟩] ≠
      ("```\ncode\n```").data := ⟨rfl, by decide⟩

/-- Claim C1 (amended): for every non-empty input, parse succeeds, the
concatenation of every node's covered span (its `content`, except that a
code node's span restores the two fence lines its `content` excludes)
reproduces the input exactly, and adjacent nodes that both carry a `loc`
are contiguous (`node[i].loc.end = node[i+1].loc.start`). -/
theorem claim1_partition (s : String) (h : s ≠ "") :
    ∃ ns, parse s = .ok ns ∧ joinSpans ns = s.data ∧
      List.Chain' locContiguous ns := by
  have hd : s.data ≠ [] := fun hnil => h (data_nil_iff.1 hnil)
  obtain ⟨ns, hok, hloop⟩ := parseData_ok hd
  refine ⟨ns, hok, ?_, (parseLoopF_chain _ _ _ _ _ hloop).1⟩
  simpa using parseLoopF_joinSpans _ _ _ _ _ hloop

/-- Witness for C1: the amended partition invariant at the input `# Hi`. -/
theorem claim1_partition_witness :
    ∃ ns, parse "# Hi" = .ok ns ∧ joinSpans ns = ("# Hi").data ∧
      List.Chain' locContiguous ns :=
  claim1_partition "# Hi" (by decide)

/-- Claim C2: parse throws a `SyntaxError`-kind error exactly on the empty
input; every non-empty input yields a node sequence (the
cursor-cannot-advance guard is unreachable). -/
theorem claim2_error_iff_empty (s : String) :
    ((∃ e, parse s = .error e) ↔ s = "") ∧
    (s ≠ "" → ∃ ns, parse s = .ok ns) := by
  by_cases hd : s.data = []
  · have hs : s = "" := data_nil_iff.1 hd
    subst hs
    exact ⟨⟨fun _ => rfl, fun _ => ⟨emptyInputError, rfl⟩⟩, fun hne => absurd rfl hne⟩
  · obtain ⟨ns, hok, -⟩ := parseData_ok hd
    have hok' : parse s = .ok ns := hok
    refine ⟨⟨?_, fun h => absurd (data_nil_iff.2 h) hd⟩, fun _ => ⟨ns, hok'⟩⟩
    rintro ⟨e, he⟩
    rw [hok'] at he
    simp at he

/-- Witness for C2: the empty input errors, `a` parses. -/
theorem claim2_witness :
    (∃ e, parse "" = .error e) ∧ (∃ ns, parse "a" = .ok ns) :=
  ⟨(claim2_error_iff_empty "").1.mpr rfl, (claim2_error_iff_empty "a").2 (by decide)⟩

/-- Claim C3: malformed and unclosed constructs degrade to the text
fallback with no error: `**not closed` is one merged text node, and an
opening code fence with no closing fence starts with a text node. -/
theorem claim3_soft_failure :
    parse "**not closed" = .ok [textNode ("**not closed").data none] ∧
    parse "```javascript\ncode" = .ok [textNode ("```javascript").data none,
      textNode ['\n'] (some ⟨⟨13, 1, 14⟩, ⟨14, 2, 1⟩⟩), textNode ("code").data none] :=
  ⟨rfl, rfl⟩

/-- Witness for C4: the universally quantified part of the
list-vs-italic disambiguation at the tail `abc`. -/
theorem claim4_witness :
    ∃ nd ns, parse ('*' :: ' ' :: ("abc").data).asString = .ok (nd :: ns) ∧
      nd.type = .list ∧ nd.content = '*' :: ' ' :: (("abc").data).takeWhile (· != '\n') :=
  claim4_list_vs_italic.1 ("abc").data

/-- Claim C5: every header node's `level` is the count of leading `#`
characters of its `content` and lies between 1 and 6 — in particular no
input (seven or more `#` included) ever yields a header of level above 6. -/
theorem claim5_header_level (s : String) (ns : List Node) (h : parse s = .ok ns)
    (nd : Node) (hmem : nd ∈ ns) (hty : nd.type = .header) :
    ∃ lv, nd.level = some lv ∧ 1 ≤ lv ∧ lv ≤ 6 ∧
      countLeadingHashes nd.content = lv := by
  obtain ⟨-, hloop⟩ := parse_ok_elim h
  exact (parseLoopF_nodeOK _ _ _ _ _ (by simp) hloop nd hmem).1 hty

/-- Witness for C5: the header-level bound at `# Hi`. -/
theorem claim5_witness :
    ∃ lv, (headerNode ("# Hi").data 1 ⟨⟨0, 1, 1⟩, ⟨4, 1, 5⟩⟩).level = some lv ∧
      1 ≤ lv ∧ lv ≤ 6 ∧
      countLeadingHashes (headerNode ("# Hi").data 1 ⟨⟨0, 1, 1⟩, ⟨4, 1, 5⟩⟩).content = lv :=
  claim5_header_level "# Hi" [headerNode ("# Hi").data 1 ⟨⟨0, 1, 1⟩, ⟨4, 1, 5⟩⟩] rfl
    _ (by simp) rfl

/-- Witness for C6: the code-block rule at language `js` and body `x`. -/
theorem claim6_witness :
    parse (codeFenceInput ("js").data ("x").data).asString =
      .ok [codeNode ('\n' :: ("x").data) ("js").data
        ⟨startPosition, advance startPosition (codeFenceInput ("js").data ("x").data)⟩] :=
  claim6_code_block.1 ("js").data ("x").data (by decide) (by decide)

/-- Witness for C9: the link rule at text `Google` and url
`https://google.com`. -/
theorem claim9_witness :
    parse (linkSpan ("Google").data ("https://google.com").data).asString =
      .ok [linkNode ("Google").data ("https://google.com").data
        (linkSpan ("Google").data ("https://google.com").data)
        ⟨startPosition, advance startPosition
          (linkSpan ("Google").data ("https://google.com").data)⟩] :=
  claim9_link.1 ("Google").data ("https://google.com").data (by decide) (by decide)

/-- Claim C7 (counterexample): in `This is **bold** text`, the text node
` text` directly follows the located bold node yet carries no `loc`, so the
claimed presence rule fails. -/
theorem claim7_counterexample :
    parse "This is **bold** text" = .ok [textNode ("This is ").data none,
      boldNode ("**bold**").data ⟨⟨8, 1, 9⟩, ⟨16, 1, 17⟩⟩,
      textNode (" text").data none] ∧
    ¬ List.Chain' locFollowsClaim [textNode ("This is ").data none,
      boldNode ("**bold**").data ⟨⟨8, 1, 9⟩, ⟨16, 1, 17⟩⟩,
      textNode (" text").data none] :=
  ⟨rfl, fun hch => by
    have h2 := (List.chain'_cons.1 (List.chain'_cons.1 hch).2).1
    have h3 := h2 rfl rfl
    simp [textNode] at h3⟩

/-- Claim C7 (amended): `loc` is present on every node that is not a text
node; a text node carries `loc` exactly when it is a newline node (its
content is `\n`) — merged fallback text nodes never carry `loc`, wherever
they occur. -/
theorem claim7_loc_policy (s : String) (ns : List Node) (h : parse s = .ok ns) :
    ∀ nd ∈ ns, (nd.type ≠ .text → nd.loc.isSome) ∧
      (nd.type = .text → (nd.loc.isSome ↔ nd.content = ['\n'])) := by
  obtain ⟨-, hloop⟩ := parse_ok_elim h
  intro nd hmem
  exact (parseLoopF_nodeOK _ _ _ _ _ (by simp) hloop nd hmem).2

/-- Witness for C7: the amended loc policy at the newline node of
parse("\n"). -/
theorem claim7_witness :
    ((textNode ['\n'] (some ⟨⟨0, 1, 1⟩, ⟨1, 2, 1⟩⟩)).type ≠ .text →
      (textNode ['\n'] (some ⟨⟨0, 1, 1⟩, ⟨1, 2, 1⟩⟩)).loc.isSome) ∧
    ((textNode ['\n'] (some ⟨⟨0, 1, 1⟩, ⟨1, 2, 1⟩⟩)).type = .text →
      ((textNode ['\n'] (some ⟨⟨0, 1, 1⟩, ⟨1, 2, 1⟩⟩)).loc.isSome ↔
        (textNode ['\n'] (some ⟨⟨0, 1, 1⟩, ⟨1, 2, 1⟩⟩)).content = ['\n'])) :=
  claim7_loc_policy "\n" [textNode ['\n'] (some ⟨⟨0, 1, 1⟩, ⟨1, 2, 1⟩⟩)] rfl
    _ (by simp)

/-- Claim C8 (counterexample): re-parsing the concatenated `content` fields
is not the identity — for a fenced code block the contents drop the fence
lines and the re-parse yields text nodes instead of the code node. -/
theorem claim8_counterexample :
    parse "```\ncode\n```" =
      .ok [codeNode ("\ncode").data [] ⟨⟨0, 1, 1⟩, ⟨12, 3, 4⟩⟩] ∧
    parse (joinContents [codeNode ("\ncode").data [] ⟨⟨0, 1, 1⟩, ⟨12, 3, 4⟩⟩]).asString =
      .ok [textNode ['\n'] (some ⟨⟨0, 1, 1⟩, ⟨1, 2, 1⟩⟩), textNode ("code").data none] ∧
    ([codeNode ("\ncode").data [] ⟨⟨0, 1, 1⟩, ⟨12, 3, 4⟩⟩] : List Node) ≠
      [textNode ['\n'] (some ⟨⟨0, 1, 1⟩, ⟨1, 2, 1⟩⟩), textNode ("code").data none] :=
  ⟨rfl, rfl, by decide⟩

theorem joinContents_eq_joinSpans {ns : List Node} (h : ∀ nd ∈ ns, nd.type ≠ .code) :
    joinContents ns = joinSpans ns := by
  induction ns with
  | nil => rfl
  | cons x xs ih =>
    have hx : spanText x = x.content := by simp [spanText, h x (by simp)]
    rw [show joinContents (x :: xs) = x.content ++ joinContents xs from rfl,
      joinSpans_cons, hx, ih (fun nd hnd => h nd (by simp [hnd]))]

/-- Claim C8 (amended): re-parsing the concatenation of all node `content`
fields yields the same node sequence as parsing the original input,
provided the parse result contains no code node (code nodes drop their
fence lines from `content`, which breaks literal reconstruction). -/
theorem claim8_reparse (s : String) (ns : List Node) (h : parse s = .ok ns)
    (hnc : ∀ nd ∈ ns, nd.type ≠ .code) :
    parse (joinContents ns).asString = parse s := by
  obtain ⟨hd, hloop⟩ := parse_ok_elim h
  have hjoin : joinSpans ns = s.data := by
    simpa using parseLoopF_joinSpans _ _ _ _ _ hloop
  have hcontents : joinContents ns = s.data := by
    rw [joinContents_eq_joinSpans hnc, hjoin]
  show parseData ((joinContents ns).asString).data = parseData s.data
  rw [show ((joinContents ns).asString).data = joinContents ns from rfl, hcontents]

/-- Witness for C8: the amended reconstruction idempotence at input `a`. -/
theorem claim8_witness :
    parse (joinContents [textNode ("a").data none]).asString = parse "a" :=
  claim8_reparse "a" [textNode ("a").data none] rfl (by decide)

/-- Claim C10: an unclaimed newline is emitted as its own node of type
`text` (there is no separate newline node type) with content `\n` and a
`loc` present: parse("\n") is exactly one such node, and the separator
between two list items is likewise a `text` node. -/
theorem claim10_newline_text_node :
    parse "\n" = .ok [textNode ['\n'] (some ⟨⟨0, 1, 1⟩, ⟨1, 2, 1⟩⟩)] ∧
    parse "* Item 1\n* Item 2" = .ok [
      listNode ("* Item 1").data ⟨⟨0, 1, 1⟩, ⟨8, 1, 9⟩⟩,
      textNode ['\n'] (some ⟨⟨8, 1, 9⟩, ⟨9, 2, 1⟩⟩),
      listNode ("* Item 2").data ⟨⟨9, 2, 1⟩, ⟨17, 2, 9⟩⟩] :=
  ⟨rfl, rfl⟩

end SnappMarkdown
